import Mathlib

/-!
Verification development for the `rag-tcc` corpus-generation pipeline.

The embedding translates the three Python scripts into Lean:

* `gerar_csv.py`   — currency normalization (`normalize_valor`), composite key
  construction (`sha12`, `make_composite_key`) and the dedup / version-index
  pass of `main` (pandas `drop_duplicates` + `groupby(...).cumcount()`).
* `gera_qa_async.py` — `slug`, `prepare_output`, `call_llm` (retry loop),
  `extract_questions`, and the per-task body of `worker` together with the
  sequential task loop (the asyncio pool delivers every queued task to exactly
  one worker; the properties below concern the skip / done-marker logic, which
  we model as one task processed at a time).
* `perguntas_para_chroma.py` — pure delegation to an external vector store; no
  claim depends on it.

Modelling conventions:

* Python strings are `String` / `List Char`.  Character classes (`\s`, `\d`,
  `\w`, `str.lower`) are modelled on ASCII; codepoints ≥ 128 are treated as
  word characters by `pyIsWord` (faithful for the accented letters appearing
  in the corpus, e.g. `ç`, `ã`).
* `float` parsing/formatting in `normalize_valor` is modelled by exact decimal
  arithmetic (a numerator/scale pair of naturals) with round-half-even to two
  decimal places, mirroring `f"{num:,.2f}"` on the exact value.  This agrees
  with CPython doubles whenever the parsed value stays below ~2^45 (the
  binary-rounding error is then under half a cent); the currency theorems
  therefore carry a 13-integer-digit bound.
* The HTTP layer of `call_llm` is an oracle `ℕ → AttemptOutcome` giving each
  attempt's transport-level outcome; `hashlib.sha1` is implemented bit-for-bit
  over the UTF-8 bytes.
* Exceptions become `Except`; the output `.jsonl` file is the list of parsed
  records it contains (`prepare_output` skips malformed lines, which do not
  arise for files written by the pipeline itself).
-/

namespace PyStr

/-- Python `\s` on ASCII: space, tab, newline, carriage return, vertical tab,
form feed (`re` also matches some Unicode spaces, which do not occur here). -/
def pyIsSpace (c : Char) : Bool :=
  c == ' ' || c == '\t' || c == '\n' || c == '\r' || c == '\x0b' || c == '\x0c'

/-- Python `str.strip()` on a character list: drop whitespace at both ends. -/
def pyStripChars (l : List Char) : List Char :=
  ((l.dropWhile pyIsSpace).reverse.dropWhile pyIsSpace).reverse

/-- Python `str.strip(ch)` for a single character argument. -/
def stripChar (ch : Char) (l : List Char) : List Char :=
  ((l.dropWhile (· == ch)).reverse.dropWhile (· == ch)).reverse

/-- Python `str.splitlines()` restricted to the line breaks `\r\n`, `\n`, `\r`
(the ones producible by the model completions); no trailing empty line. -/
def splitlinesAux (cur : List Char) : List Char → List (List Char)
  | [] => if cur.isEmpty then [] else [cur.reverse]
  | '\r' :: '\n' :: rest => cur.reverse :: splitlinesAux [] rest
  | '\n' :: rest => cur.reverse :: splitlinesAux [] rest
  | '\r' :: rest => cur.reverse :: splitlinesAux [] rest
  | c :: rest => splitlinesAux (c :: cur) rest

/-- Python `str.splitlines()` (see `splitlinesAux`). -/
def pySplitlines (l : List Char) : List (List Char) :=
  splitlinesAux [] l

/-- Python `\w` (with `re.UNICODE` default): ASCII alphanumerics, underscore;
codepoints ≥ 128 are approximated as word characters (true for the accented
letters occurring in contract objects). -/
def pyIsWord (c : Char) : Bool :=
  c.isAlphanum || c == '_' || decide (128 ≤ c.toNat)

/-- Replace each maximal run of non-word characters by a single `'_'`:
`re.sub(r"\W+", "_", ·)`.  The flag records whether the previous character
was part of a non-word run already replaced. -/
def subNonWordRuns (prevNon : Bool) : List Char → List Char
  | [] => []
  | c :: rest =>
    if pyIsWord c then c :: subNonWordRuns false rest
    else if prevNon then subNonWordRuns true rest
    else '_' :: subNonWordRuns true rest

/-- Replace each maximal whitespace run by a single space:
`re.sub(r"\s+", " ", ·)`. -/
def squeezeWs (prevSpace : Bool) : List Char → List Char
  | [] => []
  | c :: rest =>
    if pyIsSpace c then
      if prevSpace then squeezeWs true rest
      else ' ' :: squeezeWs true rest
    else c :: squeezeWs false rest

/-- Python `re.sub(r"\s+", " ", s).strip()` — collapse internal whitespace and
trim, as used on contract object texts. -/
def collapseWs (s : String) : String :=
  String.mk (pyStripChars (squeezeWs false s.data))

end PyStr

namespace GeraQa

open PyStr

/-- Embedding of `slug` (gera_qa_async.py:33-34):
`re.sub(r"\W+","_",txt.lower()).strip("_")[:n]` with the default `n = 60`.
`Char.toLower` lowers the ASCII range, like Python on the inputs at hand. -/
def slug (txt : String) : String :=
  String.mk ((stripChar '_' (subNonWordRuns false (txt.data.map Char.toLower))).take 60)

/-- Prefix test for `re.match(r"^P\d+\s*:", l, re.I)` on a stripped line:
`P`/`p`, one or more digits, optional whitespace, then a colon. -/
def matchesP (l : List Char) : Bool :=
  match l with
  | [] => false
  | c :: rest =>
    (c == 'P' || c == 'p') &&
    !(rest.takeWhile Char.isDigit).isEmpty &&
    ((rest.dropWhile Char.isDigit).dropWhile pyIsSpace).head? == some ':'

/-- Python `l.split(":", 1)[1]`: everything after the first colon. -/
def afterColon (l : List Char) : List Char :=
  (l.dropWhile (fun c => c != ':')).tail

/-- Embedding of `extract_questions` (gera_qa_async.py:78-84). -/
def extract_questions (text : String) (k : ℕ) : Except String (List String) :=
  let lines := ((pySplitlines text.data).map pyStripChars).filter (fun l => !l.isEmpty)
  let qs := (lines.filter matchesP).map (fun l => String.mk (pyStripChars (afterColon l)))
  if qs.isEmpty then
    .error ("Resposta sem perguntas:\n" ++ text)
  else
    .ok (qs.take k)

/-- Specification-side view of `extract_questions`: the stripped non-empty
lines of the completion that match the `P<number>:` prefix. -/
def pLines (text : String) : List (List Char) :=
  (((pySplitlines text.data).map pyStripChars).filter (fun l => !l.isEmpty)).filter matchesP

/-- Specification-side view of `extract_questions`: the question texts of all
matching lines, in order of appearance (before the `[:k]` truncation). -/
def matchingOf (text : String) : List String :=
  (pLines text).map (fun l => String.mk (pyStripChars (afterColon l)))

/-- Transport-level outcome of one HTTP POST in `call_llm`: either the request
itself fails, or a response arrives with a status code and, when the JSON body
has a `"response"` field, its text. -/
inductive AttemptOutcome
  | transportError
  | response (status : ℕ) (body : Option String)
deriving DecidableEq

/-- Exceptions that the `try` block of `call_llm` can raise. -/
inductive CallError
  | transport
  | httpStatus (code : ℕ)
  | missingResponse
deriving DecidableEq

/-- Body of the `try` block (gera_qa_async.py:67-72): the explicit
`status_code == 500` check, then `raise_for_status()` (4xx/5xx), then
`r.json()["response"]`. -/
def attemptResult : AttemptOutcome → Except CallError String
  | .transportError => .error .transport
  | .response s b =>
    if s = 500 then .error (.httpStatus 500)
    else if 400 ≤ s then .error (.httpStatus s)
    else
      match b with
      | none => .error .missingResponse
      | some t => .ok t

/-- `RETRIES` (gera_qa_async.py:20). -/
def RETRIES : ℕ := 3

deriving instance DecidableEq for Except

/-- Result of `call_llm`: the value returned or exception propagated, the
`asyncio.sleep` backoff delays performed (in seconds, in order), and the index
of the last attempt made. -/
structure CallTrace where
  result : Except CallError String
  sleeps : List ℕ
  attempts : ℕ
deriving DecidableEq

/-- The retry loop of `call_llm` (gera_qa_async.py:65-76), recursing on the
number of attempts still allowed after the current one.  On failure with no
attempts left the exception propagates (`raise`); otherwise the loop sleeps
`3 * attempt` seconds and retries. -/
def callAux (o : ℕ → AttemptOutcome) (attempt : ℕ) : ℕ → CallTrace
  | 0 =>
    match attemptResult (o attempt) with
    | .ok r => ⟨.ok r, [], attempt⟩
    | .error e => ⟨.error e, [], attempt⟩
  | f + 1 =>
    match attemptResult (o attempt) with
    | .ok r => ⟨.ok r, [], attempt⟩
    | .error _ =>
      let t := callAux o (attempt + 1) f
      ⟨t.result, 3 * attempt :: t.sleeps, t.attempts⟩

/-- Embedding of `call_llm` (gera_qa_async.py:59-76) given the per-attempt
HTTP oracle `o` (attempts are numbered from 1, as in the Python `range`). -/
def call_llm (o : ℕ → AttemptOutcome) : CallTrace :=
  callAux o 1 (RETRIES - 1)

/-- A queue item `(uid_base, obj, val, versao)` (gera_qa_async.py:131-134). -/
structure Task where
  base : String
  obj : String
  val : String
  versao : ℕ
deriving DecidableEq

/-- Task construction in `main` (gera_qa_async.py:129-134): the base id is the
slug of the contract object. -/
def mkTask (objeto valor : String) (vers : ℕ) : Task :=
  ⟨slug objeto, objeto, valor, vers⟩

/-- One output record, as serialized to a line of `qa_pairs.jsonl`
(gera_qa_async.py:104-110). -/
structure QARec where
  id : String
  question : String
  answer : String
  objeto : String
  valor : String
deriving DecidableEq

/-- Exceptions caught by the `except` clause of the worker body: a propagated
`call_llm` failure or the `ValueError` of `extract_questions`. -/
inductive GenError
  | call (e : CallError)
  | parse (msg : String)
deriving DecidableEq

/-- The HTTP oracle of a whole run: for each task, the transport outcome of
each of its attempts. -/
def RunOracle := Task → ℕ → AttemptOutcome

/-- The fallible part of the worker body (gera_qa_async.py:100-101):
`call_llm` followed by `extract_questions`. -/
def tryGenerate (o : RunOracle) (k : ℕ) (t : Task) : Except GenError (List String) :=
  match (call_llm (o t)).result with
  | .error e => .error (.call e)
  | .ok resp =>
    match extract_questions resp k with
    | .error m => .error (.parse m)
    | .ok qs => .ok qs

/-- Python `f"{n:02d}"` for a natural number. -/
def pad2 (n : ℕ) : String :=
  if n < 10 then "0" ++ toString n else toString n

/-- The records emitted by the `for i, q in enumerate(qs)` loop
(gera_qa_async.py:102-111): the i-th id is `f"{uid_base}_{versao:02d}_v{i}"`,
`answer` and `valor` are the task value, `objeto` the task object. -/
def mkRecs (t : Task) (qs : List String) : List QARec :=
  qs.enum.map fun p =>
    ⟨t.base ++ "_" ++ pad2 t.versao ++ "_v" ++ toString p.1, p.2, t.val, t.obj, t.val⟩

/-- The done-marker string `f"{uid_base}_v0"` checked at gera_qa_async.py:95
and added at gera_qa_async.py:116. -/
def markerOf (t : Task) : String :=
  t.base ++ "_v0"

/-- What happened to one dequeued task. -/
inductive TaskOutcome
  | skipped
  | generated (rs : List QARec)
  | failed (e : GenError)
deriving DecidableEq

/-- The worker body for one task (gera_qa_async.py:94-117): skip when the
done-marker is already present; otherwise generate, emitting records on
success and catching any error, and in either case add the done-marker
afterwards.  Returns the updated done set and the task's outcome. -/
def step (o : RunOracle) (k : ℕ) (done : List String) (t : Task) :
    List String × TaskOutcome :=
  if markerOf t ∈ done then (done, .skipped)
  else
    match tryGenerate o k t with
    | .ok qs => (markerOf t :: done, .generated (mkRecs t qs))
    | .error e => (markerOf t :: done, .failed e)

/-- The serialized task loop: each task handled to completion before the next
is dequeued.  This view is used only for the per-task and cross-run properties
(record shape, done-marker, resume behaviour), which hold in every
interleaving of the real pool; intra-run racing between the skip check and
the marker add is captured by the concurrent model `poolStep`/`runPool`
below.  Returns the final done set and the per-task outcomes (in task
order). -/
def runTasks (o : RunOracle) (k : ℕ) (done : List String) :
    List Task → List String × List TaskOutcome
  | [] => (done, [])
  | t :: ts =>
    let s := step o k done t
    let r := runTasks o k s.1 ts
    (r.1, s.2 :: r.2)

/-- Records contributed by one task outcome. -/
def recordsOf : TaskOutcome → List QARec
  | .generated rs => rs
  | _ => []

/-- All records appended to the output file by a run. -/
def outputOf (outs : List TaskOutcome) : List QARec :=
  (outs.map recordsOf).flatten

/-- Embedding of `prepare_output` (gera_qa_async.py:42-57): the done set
loaded at startup is the set of `id` fields of the records already in the
output file (the file is modelled as its parsed records; malformed lines are
skipped by the Python and cannot be produced by the pipeline itself).  The
file is then opened for append, never truncated. -/
def prepare_output (file : List QARec) : List String :=
  file.map (·.id)

/-- One full run of `main` (gera_qa_async.py:119-146) over an existing output
file and a task list: load the done ids, process every task, and append the
new records to the file. -/
def runPipeline (o : RunOracle) (k : ℕ) (file : List QARec) (tasks : List Task) :
    List QARec × List TaskOutcome :=
  let done := prepare_output file
  let r := runTasks o k done tasks
  (file ++ outputOf r.2, r.2)

end GeraQa

namespace Sha1

/-- Reduction modulo 2^32, the word size of SHA-1. -/
def w32 (n : ℕ) : ℕ := n % 4294967296

/-- Left rotation of a 32-bit word. -/
def rotl (k n : ℕ) : ℕ := ((n <<< k) ||| (n >>> (32 - k))) % 4294967296

/-- UTF-8 encoding of one code point (as `str.encode("utf-8")` does). -/
def utf8Char (n : ℕ) : List ℕ :=
  if n < 128 then [n]
  else if n < 2048 then [192 + n / 64, 128 + n % 64]
  else if n < 65536 then [224 + n / 4096, 128 + n / 64 % 64, 128 + n % 64]
  else [240 + n / 262144, 128 + n / 4096 % 64, 128 + n / 64 % 64, 128 + n % 64]

/-- UTF-8 bytes of a string. -/
def utf8Bytes (s : String) : List ℕ :=
  (s.data.map (fun c => utf8Char c.toNat)).flatten

/-- Big-endian byte representation of `n` on `k` bytes. -/
def beBytes (k n : ℕ) : List ℕ :=
  (List.range k).map (fun i => (n >>> (8 * (k - 1 - i))) % 256)

/-- SHA-1 padding: append `0x80`, zero bytes up to 56 mod 64, then the bit
length on 8 big-endian bytes. -/
def sha1Pad (m : List ℕ) : List ℕ :=
  m ++ 128 :: List.replicate ((119 - m.length % 64) % 64) 0 ++ beBytes 8 (8 * m.length)

/-- Split a byte list into 64-byte chunks (fuel-driven for structural
recursion; the fuel is instantiated with the list length). -/
def chunksAux : ℕ → List ℕ → List (List ℕ)
  | _, [] => []
  | 0, _ => []
  | f + 1, l => l.take 64 :: chunksAux f (l.drop 64)

/-- The i-th big-endian 32-bit word of a 64-byte chunk. -/
def wordOf (bs : List ℕ) (i : ℕ) : ℕ :=
  bs.getD (4 * i) 0 * 16777216 + bs.getD (4 * i + 1) 0 * 65536 +
    bs.getD (4 * i + 2) 0 * 256 + bs.getD (4 * i + 3) 0

/-- Message-schedule extension: repeatedly append
`rotl 1 (w[t-3] xor w[t-8] xor w[t-14] xor w[t-16])`. -/
def extendW : List ℕ → ℕ → List ℕ
  | w, 0 => w
  | w, f + 1 =>
    let t := w.length
    extendW (w ++ [rotl 1 (w.getD (t - 3) 0 ^^^ w.getD (t - 8) 0 ^^^
      w.getD (t - 14) 0 ^^^ w.getD (t - 16) 0)]) f

/-- Round function of SHA-1. -/
def sha1F (t b c d : ℕ) : ℕ :=
  if t < 20 then (b &&& c) ||| ((b ^^^ 4294967295) &&& d)
  else if t < 40 then b ^^^ c ^^^ d
  else if t < 60 then (b &&& c) ||| (b &&& d) ||| (c &&& d)
  else b ^^^ c ^^^ d

/-- Round constants of SHA-1. -/
def sha1K (t : ℕ) : ℕ :=
  if t < 20 then 1518500249
  else if t < 40 then 1859775393
  else if t < 60 then 2400959708
  else 3395469782

/-- One of the 80 compression rounds. -/
def roundStep (w : List ℕ) (st : ℕ × ℕ × ℕ × ℕ × ℕ) (t : ℕ) : ℕ × ℕ × ℕ × ℕ × ℕ :=
  let (a, b, c, d, e) := st
  (w32 (rotl 5 a + sha1F t b c d + e + sha1K t + w.getD t 0), a, rotl 30 b, c, d)

/-- Process one 64-byte chunk. -/
def processChunk (h : ℕ × ℕ × ℕ × ℕ × ℕ) (chunk : List ℕ) : ℕ × ℕ × ℕ × ℕ × ℕ :=
  let w := extendW ((List.range 16).map (wordOf chunk)) 64
  let r := (List.range 80).foldl (roundStep w) h
  (w32 (h.1 + r.1), w32 (h.2.1 + r.2.1), w32 (h.2.2.1 + r.2.2.1),
    w32 (h.2.2.2.1 + r.2.2.2.1), w32 (h.2.2.2.2 + r.2.2.2.2))

/-- The five 32-bit state words of the SHA-1 digest of a byte message. -/
def sha1Words (msg : List ℕ) : ℕ × ℕ × ℕ × ℕ × ℕ :=
  (chunksAux (sha1Pad msg).length (sha1Pad msg)).foldl processChunk
    (1732584193, 4023233417, 2562383102, 271733878, 3285377520)

/-- Lowercase hexadecimal digit for `n < 16`. -/
def hexChar (n : ℕ) : Char :=
  if n < 10 then Char.ofNat (48 + n) else Char.ofNat (87 + n)

/-- The eight hex characters of a 32-bit word, most significant first. -/
def wordHex (w : ℕ) : List Char :=
  (List.range 8).map (fun i => hexChar (w >>> (4 * (7 - i)) % 16))

/-- The 40 characters of `hashlib.sha1(...).hexdigest()`. -/
def sha1HexChars (msg : List ℕ) : List Char :=
  wordHex (sha1Words msg).1 ++ wordHex (sha1Words msg).2.1 ++
    wordHex (sha1Words msg).2.2.1 ++ wordHex (sha1Words msg).2.2.2.1 ++
    wordHex (sha1Words msg).2.2.2.2

/-- Membership in the lowercase hex alphabet. -/
def isHexChar (c : Char) : Bool :=
  "0123456789abcdef".data.contains c

end Sha1

namespace GerarCsv

open PyStr Sha1

/-- Embedding of `sha12` (gerar_csv.py:19-20):
`hashlib.sha1(txt.encode("utf-8")).hexdigest()[:12]`. -/
def sha12 (txt : String) : String :=
  String.mk ((sha1HexChars (utf8Bytes txt)).take 12)

/-- The metadata mapping consumed by `make_composite_key`: each relevant key
either absent or bound to a string. -/
structure Meta where
  objeto_contrato : Option String
  processo_gdf : Option String
  numero_contrato : Option String
deriving DecidableEq

/-- The normalized object text of `make_composite_key` (gerar_csv.py:23):
`re.sub(r"\s+", " ", meta.get("objeto_contrato", "")).strip()`. -/
def normObjOf (m : Meta) : String :=
  collapseWs (m.objeto_contrato.getD "")

/-- The hash component (gerar_csv.py:24):
`sha12(obj) if obj else "no_obj_hash"`. -/
def objHashOf (m : Meta) : String :=
  if normObjOf m ≠ "" then sha12 (normObjOf m) else "no_obj_hash"

/-- Embedding of `make_composite_key` (gerar_csv.py:22-27). -/
def make_composite_key (m : Meta) : String :=
  objHashOf m ++ "_" ++ m.processo_gdf.getD "unknown_processo" ++ "_" ++
    m.numero_contrato.getD "unknown_numero"

/-- ASCII digit character for `d < 10`. -/
def digitChar (d : ℕ) : Char := Char.ofNat (48 + d)

/-- Numeric value of an ASCII digit character. -/
def charDigitVal (c : Char) : ℕ := c.toNat - 48

/-- Value of a most-significant-first digit-character list. -/
def toNatMSB (l : List Char) : ℕ := l.foldl (fun a c => 10 * a + charDigitVal c) 0

/-- Base-10 digits of `n`, least significant first (fuel-driven; the fuel is
instantiated with `n` itself, which bounds the digit count). -/
def natDigitsAux : ℕ → ℕ → List ℕ
  | _, 0 => []
  | 0, _ => []
  | f + 1, n => n % 10 :: natDigitsAux f (n / 10)

/-- Decimal digit list of `n`, most significant first; `[0]` for zero, as in
Python's decimal rendering. -/
def intDigits (n : ℕ) : List ℕ :=
  if n = 0 then [0] else (natDigitsAux n n).reverse

/-- Insert `','` after every three characters of a reversed digit list — the
thousands separators of Python's `{:,}` format, built from the right. -/
def group3rev : List Char → List Char
  | d1 :: d2 :: d3 :: d4 :: rest => d1 :: d2 :: d3 :: ',' :: group3rev (d4 :: rest)
  | l => l

/-- Comma thousands grouping of a most-significant-first digit list. -/
def group3 (l : List Char) : List Char := (group3rev l.reverse).reverse

/-- Round `a / b` to the nearest integer, ties to even (`b > 0`); the rounding
mode of Python's fixed-point formatting. -/
def rhe (a b : ℕ) : ℕ :=
  if 2 * (a % b) < b then a / b
  else if b < 2 * (a % b) then a / b + 1
  else if a / b % 2 = 0 then a / b else a / b + 1

/-- The cent count printed by `f"{num:,.2f}"` for the exact value
`n / 10 ^ m`. -/
def centsOf (n m : ℕ) : ℕ := rhe (n * 100) (10 ^ m)

/-- Python `float()` on the strings reachable from `normalize_valor`'s `v`
(only digits and dots can remain): defined iff there is at least one digit
and at most one dot, in which case the exact value is returned as numerator
and decimal scale.  Doubles are idealized as exact decimals here; see the
file comment for the (13-digit) region where this matches CPython. -/
def pyFloatChars (v : List Char) : Option (ℕ × ℕ) :=
  if v.all (fun c => c.isDigit || c == '.') && v.any Char.isDigit &&
      v.count '.' ≤ 1 then
    let ip := v.takeWhile (fun c => c != '.')
    let fp := (v.dropWhile (fun c => c != '.')).tail
    some (toNatMSB (ip ++ fp), fp.length)
  else none

/-- The characters of `f"R$ {num:,.2f}"` for a cent count. -/
def usFormat (cents : ℕ) : List Char :=
  "R$ ".data ++ group3 ((intDigits (cents / 100)).map digitChar) ++
    '.' :: [digitChar (cents % 100 / 10), digitChar (cents % 10)]

/-- First step of the separator swap: `.replace(",", "X")`. -/
def swap1 (c : Char) : Char := if c == ',' then 'X' else c

/-- Second step of the separator swap: `.replace(".", ",")`. -/
def swap2 (c : Char) : Char := if c == '.' then ',' else c

/-- Third step of the separator swap: `.replace("X", ".")`. -/
def swap3 (c : Char) : Char := if c == 'X' then '.' else c

/-- `re.sub(r"[^\d,\.]", "", ·)`: keep only digits, comma, dot. -/
def cleanChars (s : String) : List Char :=
  s.data.filter (fun c => c.isDigit || c == ',' || c == '.')

/-- The `.replace(",", ".")` step of `normalize_valor`, per character. -/
def commaToDot (c : Char) : Char := if c == ',' then '.' else c

/-- Embedding of `normalize_valor` (gerar_csv.py:10-17): strip to digits,
comma, dot; drop dots, turn the comma into a decimal point; parse; reformat
as `"R$ "` plus a comma-grouped fixed-point rendering, then swap `,`/`.` via
the three single-character `replace` calls. -/
def normalize_valor (valor_raw : String) : Option String :=
  let v := ((cleanChars valor_raw).filter (fun c => c != '.')).map commaToDot
  match pyFloatChars v with
  | none => none
  | some (n, m) =>
    some (String.mk ((((usFormat (centsOf n m)).map swap1).map swap2).map swap3))

/-- Specification-side shape of a grouped integer part, read from the right:
`d{1,3}('.'ddd)*`. -/
def revGroupedDot : List Char → Bool
  | [a] => a.isDigit
  | [a, b] => a.isDigit && b.isDigit
  | [a, b, c] => a.isDigit && b.isDigit && c.isDigit
  | a :: b :: c :: s :: rest =>
    a.isDigit && b.isDigit && c.isDigit && s == '.' && revGroupedDot rest
  | [] => false

/-- Specification-side shape of a normalized currency string: `"R$ "`, then
dot-grouped digits, a comma, and exactly two decimal digits. -/
def outputShape (t : String) : Bool :=
  match t.data with
  | 'R' :: '$' :: ' ' :: rest =>
    match rest.reverse with
    | d2 :: d1 :: ',' :: ipRev => d1.isDigit && d2.isDigit && revGroupedDot ipRev
    | _ => false
  | _ => false

/-- Specification-side test for a Brazilian-format currency character list
(after stripping): a nonempty run of digits possibly interspersed with dot
thousands separators, optionally followed by a comma and exactly two decimal
digits. -/
def brFormat (l : List Char) : Bool :=
  let ip := l.takeWhile (fun c => c != ',')
  ip.all (fun c => c.isDigit || c == '.') && ip.any Char.isDigit &&
    (match l.dropWhile (fun c => c != ',') with
     | [] => true
     | [_, a, b] => a.isDigit && b.isDigit
     | _ => false)

/-- Number of integer-part digits of a cleaned currency string; the currency
theorems bound it by 13 to stay where the exact-decimal model agrees with
CPython doubles. -/
def ipDigitCount (l : List Char) : ℕ :=
  ((l.takeWhile (fun c => c != ',')).filter Char.isDigit).length

/-- A CSV row of `gerar_csv.main` before version indexing
(gerar_csv.py:53-60). -/
structure Row where
  composite_key : String
  objeto_contrato : String
  valor_contrato : String
  processo_gdf : String
  numero_contrato : String
  raw_text_hash : String
deriving DecidableEq

/-- The pandas dedup subset: `["composite_key", "raw_text_hash"]`. -/
def dupKey (r : Row) : String × String := (r.composite_key, r.raw_text_hash)

/-- `df.drop_duplicates(subset=["composite_key","raw_text_hash"])` with the
default `keep="first"`, threaded through the set of keys already seen. -/
def dropDupAux (seen : List (String × String)) : List Row → List Row
  | [] => []
  | r :: rs =>
    if dupKey r ∈ seen then dropDupAux seen rs
    else r :: dropDupAux (dupKey r :: seen) rs

/-- The dedup pass of `main` (gerar_csv.py:65). -/
def drop_duplicates (l : List Row) : List Row := dropDupAux [] l

/-- `df.groupby("composite_key").cumcount()`: each row paired with the number
of earlier rows sharing its composite key, threaded through a count map. -/
def cumcountAux (cnt : String → ℕ) : List Row → List (Row × ℕ)
  | [] => []
  | r :: rs =>
    (r, cnt r.composite_key) ::
      cumcountAux (fun c => if c = r.composite_key then cnt c + 1 else cnt c) rs

/-- The version-index pass of `main` (gerar_csv.py:68). -/
def versaoIdx (l : List Row) : List (Row × ℕ) := cumcountAux (fun _ => 0) l

/-- The dedup-then-version pipeline of `main` (gerar_csv.py:62-68): rows with
their final `versao_idx`. -/
def dedupAndVersion (l : List Row) : List (Row × ℕ) :=
  versaoIdx (drop_duplicates l)

end GerarCsv

namespace GeraQa

/-- Stubbed model for concrete run scenarios: every request immediately
succeeds with the fixed completion `text`. -/
def okOracle (text : String) : RunOracle :=
  fun _ _ => .response 200 (some text)

/-- Oracle on which every attempt fails at the transport level. -/
def failOracle : RunOracle :=
  fun _ _ => .transportError

/-- The stubbed completion of the spec's end-to-end scenario. -/
def e2eText : String :=
  "P1: Qual o valor do contrato?\nP2: Quanto foi pago?\nResposta: R$ 1.234,56"

/-- The task of the spec's end-to-end scenario (`versao_idx = 0`). -/
def e2eTask : Task :=
  mkTask "Aquisição de material de limpeza" "R$ 1.234,56" 0

/-- Single task used in the resume scenario. -/
def c1Task : Task := mkTask "contrato" "R$ 1,00" 0

/-- Oracle used in the resume scenario. -/
def c1Oracle : RunOracle := okOracle "P1: Qual o valor?\nResposta: R$ 1,00"

/-- Worker-local state of the concurrent pool between scheduler steps: parked
at `await queue.get()`, or suspended inside the awaits of `call_llm` while
processing task `t`. -/
inductive WorkerState
  | idle
  | busy (t : Task)
deriving DecidableEq

/-- Shared state of the concurrent pool: the pending queue, the done set, and
the local state of each of the `conc` workers. -/
structure PoolState where
  queue : List Task
  done : List String
  workers : List WorkerState
deriving DecidableEq

/-- One atomic segment of worker `w` of the pool.  asyncio runs code
atomically between awaits, which splits the worker body
(gera_qa_async.py:88-117) into two shared-state segments per task: an idle
worker resumes from `queue.get()`, unpacks the item, runs the skip check
(line 95) and either skips in the same segment or enters `call_llm` and
suspends at its first `await`; a busy worker resumes from its await and runs
the rest of the loop body — parse, emit the records (or catch the error) and
unconditionally add the done-marker (line 116).  The retry suspensions inside
`call_llm` read or write no shared state, so they are collapsed into the
completion segment.  Returns the new state and the (task, outcome) events of
this segment; stepping a missing worker or an idle worker on an empty queue
is a no-op (the coroutine stays suspended). -/
def poolStep (o : RunOracle) (k : ℕ) (st : PoolState) (w : ℕ) :
    PoolState × List (Task × TaskOutcome) :=
  match st.workers[w]? with
  | none => (st, [])
  | some .idle =>
    match st.queue with
    | [] => (st, [])
    | t :: rest =>
      if markerOf t ∈ st.done then
        ({ st with queue := rest }, [(t, .skipped)])
      else
        ({ st with queue := rest, workers := st.workers.set w (.busy t) }, [])
  | some (.busy t) =>
    let st2 : PoolState :=
      ⟨st.queue, markerOf t :: st.done, st.workers.set w WorkerState.idle⟩
    match tryGenerate o k t with
    | .ok qs => (st2, [(t, .generated (mkRecs t qs))])
    | .error e => (st2, [(t, .failed e)])

/-- Run the pool under an explicit schedule — the sequence of workers the
event loop resumes at each suspension point — collecting the emitted events
in completion order. -/
def runPool (o : RunOracle) (k : ℕ) (st : PoolState) :
    List ℕ → PoolState × List (Task × TaskOutcome)
  | [] => (st, [])
  | w :: ws =>
    let s := poolStep o k st w
    let r := runPool o k s.1 ws
    (r.1, s.2 ++ r.2)

end GeraQa

/-! ## Theorems -/

namespace GeraQa

/-- Claim C4 — Retry policy of the LLM client: for every per-attempt HTTP
oracle, `call_llm` makes at most 3 attempts; a failure (HTTP 5xx, any other
raised status, a transport error, or a missing `response` field) on attempt
`i < 3` is followed by a backoff of `3 * i` seconds and a retry; a failure on
the 3rd attempt propagates the error; a successful attempt returns
immediately with no further attempts and no further sleeps. -/
theorem call_llm_retry_policy (o : ℕ → AttemptOutcome) :
    call_llm o =
      match attemptResult (o 1) with
      | .ok r => ⟨.ok r, [], 1⟩
      | .error _ =>
        match attemptResult (o 2) with
        | .ok r => ⟨.ok r, [3], 2⟩
        | .error _ =>
          match attemptResult (o 3) with
          | .ok r => ⟨.ok r, [3, 6], 3⟩
          | .error e => ⟨.error e, [3, 6], 3⟩ := by
  show callAux o 1 2 = _
  rcases h1 : attemptResult (o 1) with e1 | r1
  · rcases h2 : attemptResult (o 2) with e2 | r2
    · rcases h3 : attemptResult (o 3) with e3 | r3
      · simp [callAux, h1, h2, h3]
      · simp [callAux, h1, h2, h3]
    · simp [callAux, h1, h2]
  · simp [callAux, h1]

/-- Claim C10 — The retry loop treats every failure kind uniformly: whenever
attempt 1 raises any exception `e` (be it a 4xx status, a missing `response`
field, a transport error, or a 5xx), `call_llm` sleeps 3 seconds and
continues from attempt 2, independently of which exception was raised. -/
theorem call_llm_uniform_retry (o : ℕ → AttemptOutcome) (e : CallError)
    (h : attemptResult (o 1) = .error e) :
    call_llm o =
      ⟨(callAux o 2 1).result, 3 :: (callAux o 2 1).sleeps, (callAux o 2 1).attempts⟩ := by
  show callAux o 1 2 = _
  simp [callAux, h]

/-- Witness for C10 at a failure that is neither 5xx nor transport-level: a
200 response whose JSON body lacks the `response` field is retried, and the
second attempt's success is returned after one 3-second backoff. -/
theorem call_llm_uniform_retry_witness :
    attemptResult ((fun i => if i = 1 then .response 200 none
      else .response 200 (some "ok")) 1) = .error .missingResponse ∧
    call_llm (fun i => if i = 1 then .response 200 none
      else .response 200 (some "ok")) = ⟨.ok "ok", [3], 2⟩ := by
  refine ⟨by decide, ?_⟩
  rw [call_llm_uniform_retry (fun i => if i = 1 then .response 200 none
    else .response 200 (some "ok")) .missingResponse (by decide)]
  decide

/-- Claim C5 — `extract_questions` behaviour: a successful result is exactly
the first `k` of the question texts extracted (in order of appearance) from
the stripped non-empty lines matching the `P<number>:` prefix, so it has at
most `k` elements and exactly `min (number of matching lines) k` of them
(never padded); and it raises the parse error exactly when zero matching
lines exist. -/
theorem extract_questions_spec (text : String) (k : ℕ) :
    (∀ l, extract_questions text k = .ok l →
      l = (matchingOf text).take k ∧ l.length ≤ k ∧
        l.length = min (matchingOf text).length k) ∧
    ((∃ msg, extract_questions text k = .error msg) ↔ matchingOf text = []) := by
  have hdef : extract_questions text k =
      if (matchingOf text).isEmpty then .error ("Resposta sem perguntas:\n" ++ text)
      else .ok ((matchingOf text).take k) := by
    simp only [extract_questions, matchingOf, pLines, List.filter_filter]
  by_cases hm : matchingOf text = []
  · constructor
    · intro l hl
      rw [hdef, hm] at hl
      simp at hl
    · exact ⟨fun _ => hm, fun _ => ⟨_, by rw [hdef, hm]; rfl⟩⟩
  · constructor
    · intro l hl
      rw [hdef, if_neg (by simpa [List.isEmpty_iff] using hm)] at hl
      obtain rfl : (matchingOf text).take k = l := by injection hl
      refine ⟨rfl, ?_, ?_⟩
      · simp
      · simp [Nat.min_comm]
    · refine ⟨fun ⟨msg, hmsg⟩ => ?_, fun h => absurd h hm⟩
      rw [hdef, if_neg (by simpa [List.isEmpty_iff] using hm)] at hmsg
      exact absurd hmsg (by simp)

/-- Witness for C5 at the spec's example inputs: two matching lines with
`k = 3` give exactly the two question texts (not padded), and an input with
no `P<n>:` line fails with a parse error. -/
theorem extract_questions_spec_witness :
    extract_questions "P1: Qual o valor?\nP2: Quanto custou?" 3 =
      .ok ["Qual o valor?", "Quanto custou?"] ∧
    ["Qual o valor?", "Quanto custou?"] =
      (matchingOf "P1: Qual o valor?\nP2: Quanto custou?").take 3 ∧
    (∃ msg, extract_questions "Resposta: nada" 3 = .error msg) := by
  refine ⟨by decide, ?_, ?_⟩
  · exact ((extract_questions_spec "P1: Qual o valor?\nP2: Quanto custou?" 3).1 _
      (by decide)).1
  · exact (extract_questions_spec "Resposta: nada" 3).2.mpr (by decide)

end GeraQa

namespace GeraQa

/-- Claim C6 — Unconditional done-marker invariant: for every task a worker
handles (its marker not yet in the done set), the marker `{base}_v0` is in
the done set after the step, whether generation succeeded or raised; any
error from `call_llm` or `extract_questions` is absorbed into the task's
outcome (`failed`); and the task loop continues with the remaining tasks
after any outcome. -/
theorem worker_marks_done (o : RunOracle) (k : ℕ) (done : List String) (t : Task)
    (h : markerOf t ∉ done) :
    markerOf t ∈ (step o k done t).1 ∧
    (∀ e, tryGenerate o k t = .error e → (step o k done t).2 = .failed e) ∧
    ∀ ts, runTasks o k done (t :: ts) =
      ((runTasks o k (step o k done t).1 ts).1,
        (step o k done t).2 :: (runTasks o k (step o k done t).1 ts).2) := by
  refine ⟨?_, ?_, fun ts => rfl⟩
  · unfold step
    rw [if_neg h]
    cases htg : tryGenerate o k t <;> simp [htg]
  · intro e he
    unfold step
    rw [if_neg h, he]

/-- Witness for C6 on a permanently failing task: all three attempts fail at
the transport level, the worker still records the done-marker, and the
outcome is the absorbed error. -/
theorem worker_marks_done_witness :
    markerOf (mkTask "contrato" "R$ 1,00" 0) ∈
      (step failOracle 3 [] (mkTask "contrato" "R$ 1,00" 0)).1 ∧
    (step failOracle 3 [] (mkTask "contrato" "R$ 1,00" 0)).2 =
      .failed (.call .transport) := by
  have h := worker_marks_done failOracle 3 [] (mkTask "contrato" "R$ 1,00" 0)
    (by decide)
  exact ⟨h.1, h.2.1 (.call .transport) (by decide)⟩

/-- Claim C7 — QAPair shape: when generation succeeds with question list
`qs`, the worker records outcome `generated (mkRecs t qs)`; exactly
`qs.length` records are appended; and the `i`-th record has id
`{base}_{versao:02d}_v{i}`, question `qs[i]`, `answer = valor = t.val` and
`objeto = t.obj`. -/
theorem qapair_shape (o : RunOracle) (k : ℕ) (done : List String) (t : Task)
    (qs : List String) (hskip : markerOf t ∉ done)
    (hgen : tryGenerate o k t = .ok qs) :
    (step o k done t).2 = .generated (mkRecs t qs) ∧
    (mkRecs t qs).length = qs.length ∧
    ∀ i (hi : i < qs.length),
      (mkRecs t qs)[i]? =
        some ⟨t.base ++ "_" ++ pad2 t.versao ++ "_v" ++ toString i,
          qs[i], t.val, t.obj, t.val⟩ := by
  have hlen : (mkRecs t qs).length = qs.length := by simp [mkRecs]
  refine ⟨?_, hlen, ?_⟩
  · unfold step
    rw [if_neg hskip, hgen]
  · intro i hi
    rw [List.getElem?_eq_getElem (by rw [hlen]; exact hi)]
    simp [mkRecs]

/-- Witness for C7 at the spec's end-to-end scenario: `versao_idx = 0`,
`k = 2`, stubbed completion with two `P<n>:` lines; exactly two records are
emitted, with ids ending `_00_v0` and `_00_v1` and both `answer` fields equal
to `"R$ 1.234,56"`. -/
theorem qapair_shape_witness :
    (step (okOracle e2eText) 2 [] e2eTask).2 = .generated
      [⟨"aquisição_de_material_de_limpeza_00_v0", "Qual o valor do contrato?",
          "R$ 1.234,56", "Aquisição de material de limpeza", "R$ 1.234,56"⟩,
        ⟨"aquisição_de_material_de_limpeza_00_v1", "Quanto foi pago?",
          "R$ 1.234,56", "Aquisição de material de limpeza", "R$ 1.234,56"⟩] := by
  refine ((qapair_shape (okOracle e2eText) 2 [] e2eTask
    ["Qual o valor do contrato?", "Quanto foi pago?"] (by decide)
    (by decide)).1).trans ?_
  decide

/-- Claim C1 (code bug) — Resume is not idempotent: `prepare_output` loads
the full record ids `{base}_{versao:02d}_v{i}` from the existing file, while
the worker's skip check looks for the bare marker `{base}_v0`, which never
matches them.  Concretely: after a first run over one task emits the id
`"contrato_00_v0"`, a second run over the same input does not skip the task
and appends the same id again, duplicating the first version of its
questions. -/
theorem resume_never_skips_across_runs :
    (runPipeline c1Oracle 3 [] [c1Task]).1.map (fun r => r.id) =
      ["contrato_00_v0"] ∧
    (runPipeline c1Oracle 3 (runPipeline c1Oracle 3 [] [c1Task]).1 [c1Task]).2 ≠
      [.skipped] ∧
    ((runPipeline c1Oracle 3 (runPipeline c1Oracle 3 [] [c1Task]).1 [c1Task]).1.map
      (fun r => r.id)).count "contrato_00_v0" = 2 := by
  decide

end GeraQa

namespace GerarCsv

open Sha1

/-- Every hex digit produced by `hexChar` on a value below 16 is in the
lowercase hex alphabet. -/
theorem hexChar_isHex : ∀ n < 16, isHexChar (hexChar n) = true := by decide

/-- A word renders to exactly eight hex characters. -/
theorem wordHex_length (w : ℕ) : (wordHex w).length = 8 := by
  simp [wordHex]

/-- All characters of a rendered word are hex digits. -/
theorem wordHex_isHex (w : ℕ) : ∀ c ∈ wordHex w, isHexChar c = true := by
  intro c hc
  obtain ⟨i, -, rfl⟩ := List.mem_map.1 hc
  exact hexChar_isHex _ (Nat.mod_lt _ (by omega))

/-- The full hexdigest has 40 characters. -/
theorem sha1HexChars_length (msg : List ℕ) : (sha1HexChars msg).length = 40 := by
  simp [sha1HexChars, wordHex_length]

/-- All characters of the hexdigest are hex digits. -/
theorem sha1HexChars_isHex (msg : List ℕ) :
    ∀ c ∈ sha1HexChars msg, isHexChar c = true := by
  intro c hc
  simp only [sha1HexChars, List.mem_append] at hc
  rcases hc with ((((h | h) | h) | h) | h) <;> exact wordHex_isHex _ c h

/-- `sha12` always returns exactly 12 characters. -/
theorem sha12_length (txt : String) : (sha12 txt).length = 12 := by
  show ((sha1HexChars (utf8Bytes txt)).take 12).length = 12
  rw [List.length_take, sha1HexChars_length]
  decide

/-- All characters of `sha12` are lowercase hex digits. -/
theorem sha12_isHex (txt : String) : ∀ c ∈ (sha12 txt).data, isHexChar c = true :=
  fun c hc => sha1HexChars_isHex _ c (List.take_subset 12 _ hc)

/-- Claim C8 — Composite key totality and sentinels: for every metadata
mapping — including those lacking the object, the process id, or the
contract number — `make_composite_key` joins with underscores the object
hash (a 12-character lowercase-hex digest of the whitespace-normalized
object, or the sentinel `"no_obj_hash"` when it is empty/absent), the
process id (or `"unknown_processo"`), and the contract number (or
`"unknown_numero"`); the result is never empty; and metadata with identical
normalized object text always get an identical hash component. -/
theorem make_composite_key_total (m : Meta) :
    make_composite_key m =
      objHashOf m ++ "_" ++ m.processo_gdf.getD "unknown_processo" ++ "_" ++
        m.numero_contrato.getD "unknown_numero" ∧
    make_composite_key m ≠ "" ∧
    (objHashOf m = "no_obj_hash" ∨
      ((objHashOf m).length = 12 ∧ ∀ c ∈ (objHashOf m).data, isHexChar c = true)) ∧
    ∀ m' : Meta, normObjOf m = normObjOf m' → objHashOf m = objHashOf m' := by
  refine ⟨rfl, ?_, ?_, ?_⟩
  · intro h
    have hlen := congrArg String.length h
    simp [make_composite_key, String.length_append] at hlen
    exact absurd hlen.1.1.1.2 (by decide)
  · unfold objHashOf
    by_cases h : normObjOf m = ""
    · rw [if_neg (by simpa using h)]
      exact Or.inl rfl
    · rw [if_pos (by simpa using h)]
      exact Or.inr ⟨sha12_length _, sha12_isHex _⟩
  · intro m' h
    unfold objHashOf
    rw [h]

/-- Witness for C8: a metadata mapping with every key absent falls back to
all three sentinels; and two mappings whose object texts differ only in
whitespace get the same hash component (applied through the theorem's
determinism conjunct). -/
theorem make_composite_key_total_witness :
    make_composite_key ⟨none, none, none⟩ =
      "no_obj_hash_unknown_processo_unknown_numero" ∧
    make_composite_key ⟨none, none, none⟩ ≠ "" ∧
    objHashOf ⟨some "a  b", none, none⟩ = objHashOf ⟨some " a b ", some "p", some "n"⟩ := by
  refine ⟨by decide, (make_composite_key_total ⟨none, none, none⟩).2.1, ?_⟩
  exact (make_composite_key_total ⟨some "a  b", none, none⟩).2.2.2
    ⟨some " a b ", some "p", some "n"⟩ (by decide)

end GerarCsv

namespace GerarCsv

/-- The dedup pass yields a subsequence of its input (rows are only dropped,
never reordered or invented). -/
theorem dropDupAux_sublist (l : List Row) :
    ∀ seen, (dropDupAux seen l).Sublist l := by
  induction l with
  | nil => intro seen; simp [dropDupAux]
  | cons r rs ih =>
    intro seen
    unfold dropDupAux
    by_cases h : dupKey r ∈ seen
    · rw [if_pos h]
      exact (ih seen).cons r
    · rw [if_neg h]
      exact (ih (dupKey r :: seen)).cons₂ r

/-- No surviving row carries a key that was already in the seen set. -/
theorem mem_dropDupAux_not_seen (l : List Row) :
    ∀ seen r, r ∈ dropDupAux seen l → dupKey r ∉ seen := by
  induction l with
  | nil => intro seen r h; simp [dropDupAux] at h
  | cons x xs ih =>
    intro seen r h
    unfold dropDupAux at h
    by_cases hx : dupKey x ∈ seen
    · rw [if_pos hx] at h
      exact ih seen r h
    · rw [if_neg hx] at h
      rcases List.mem_cons.1 h with rfl | h
      · exact hx
      · exact fun hs => ih _ r h (List.mem_cons_of_mem _ hs)

/-- Surviving rows have pairwise distinct `(composite_key, raw_text_hash)`
keys. -/
theorem dropDupAux_pairwise (l : List Row) :
    ∀ seen, (dropDupAux seen l).Pairwise (fun a b => dupKey a ≠ dupKey b) := by
  induction l with
  | nil => intro seen; simp [dropDupAux]
  | cons x xs ih =>
    intro seen
    unfold dropDupAux
    by_cases hx : dupKey x ∈ seen
    · rw [if_pos hx]
      exact ih seen
    · rw [if_neg hx]
      refine List.Pairwise.cons (fun b hb => ?_) (ih _)
      have := mem_dropDupAux_not_seen xs _ b hb
      exact fun he => this (he ▸ List.mem_cons_self _ _)

/-- Each surviving row is the first row of the input with its key. -/
theorem dropDupAux_first (l : List Row) :
    ∀ seen r, r ∈ dropDupAux seen l → dupKey r ∉ seen →
      l.find? (fun x => dupKey x == dupKey r) = some r := by
  induction l with
  | nil => intro seen r h; simp [dropDupAux] at h
  | cons x xs ih =>
    intro seen r h hns
    unfold dropDupAux at h
    by_cases hx : dupKey x ∈ seen
    · rw [if_pos hx] at h
      have hne : dupKey x ≠ dupKey r := fun he => hns (he ▸ hx)
      rw [List.find?_cons_of_neg _ (by simpa using hne)]
      exact ih seen r h hns
    · rw [if_neg hx] at h
      rcases List.mem_cons.1 h with rfl | h
      · rw [List.find?_cons_of_pos _ (by simp)]
      · have hnr : dupKey r ∉ dupKey x :: seen := mem_dropDupAux_not_seen xs _ r h
        have hne : dupKey x ≠ dupKey r := fun he =>
          hnr (he ▸ List.mem_cons_self _ _)
        rw [List.find?_cons_of_neg _ (by simpa using hne)]
        exact ih _ r h hnr

/-- Cumulative-count lemma: within any composite-key group, the version
indices emitted by `cumcountAux` starting from count `cnt` are the
consecutive integers starting at `cnt c`. -/
theorem cumcountAux_filter (c : String) (l : List Row) :
    ∀ cnt : String → ℕ,
      ((cumcountAux cnt l).filter (fun p => p.1.composite_key == c)).map (·.2) =
        List.range' (cnt c) ((l.filter (fun r => r.composite_key == c)).length) := by
  induction l with
  | nil => intro cnt; simp [cumcountAux]
  | cons r rs ih =>
    intro cnt
    unfold cumcountAux
    by_cases h : r.composite_key = c
    · rw [List.filter_cons_of_pos (by simpa using h),
        List.filter_cons_of_pos (by simpa using h)]
      simp only [List.map_cons, List.length_cons, List.range'_succ]
      refine congrArg₂ _ (by rw [h]) ?_
      rw [ih]
      rw [if_pos h.symm]
    · rw [List.filter_cons_of_neg (by simpa using h),
        List.filter_cons_of_neg (by simpa using h)]
      rw [ih]
      rw [if_neg fun he => h he.symm]

/-- Claim C3 — Deduplication and version indexing: of any two rows with the
same `(composite_key, raw_text_hash)` only the first occurrence survives
(every survivor is the input's first row with its key, survivors form a
subsequence with pairwise-distinct keys); and within each composite-key
group the surviving rows receive the dense version indices 0, 1, 2, … in
original order. -/
theorem dedup_version_spec (l : List Row) :
    (drop_duplicates l).Sublist l ∧
    (drop_duplicates l).Pairwise (fun a b => dupKey a ≠ dupKey b) ∧
    (∀ r ∈ drop_duplicates l, l.find? (fun x => dupKey x == dupKey r) = some r) ∧
    ∀ c, ((dedupAndVersion l).filter (fun p => p.1.composite_key == c)).map (·.2) =
      List.range (((drop_duplicates l).filter
        (fun r => r.composite_key == c)).length) := by
  refine ⟨dropDupAux_sublist l [], dropDupAux_pairwise l [], ?_, ?_⟩
  · intro r hr
    exact dropDupAux_first l [] r hr (by simp)
  · intro c
    rw [show dedupAndVersion l = cumcountAux (fun _ => 0) (drop_duplicates l) from rfl,
      cumcountAux_filter c (drop_duplicates l) (fun _ => 0), List.range_eq_range']

/-- Witness for C3 on a four-row input: an exact duplicate collapses onto its
first occurrence, while two rows sharing a composite key but differing in
`raw_text_hash` both survive, with version indices 0 and 1 in original
order. -/
theorem dedup_version_spec_witness :
    dedupAndVersion
        [⟨"k1", "o", "v", "p", "n", "h1"⟩, ⟨"k1", "o", "v", "p", "n", "h1"⟩,
          ⟨"k1", "o2", "v2", "p", "n", "h2"⟩, ⟨"k2", "o3", "v3", "p", "n", "h3"⟩] =
      [(⟨"k1", "o", "v", "p", "n", "h1"⟩, 0), (⟨"k1", "o2", "v2", "p", "n", "h2"⟩, 1),
        (⟨"k2", "o3", "v3", "p", "n", "h3"⟩, 0)] ∧
    ((dedupAndVersion
        [⟨"k1", "o", "v", "p", "n", "h1"⟩, ⟨"k1", "o", "v", "p", "n", "h1"⟩,
          ⟨"k1", "o2", "v2", "p", "n", "h2"⟩, ⟨"k2", "o3", "v3", "p", "n", "h3"⟩]).filter
      (fun p => p.1.composite_key == "k1")).map (·.2) = [0, 1] := by
  refine ⟨by decide, ?_⟩
  refine ((dedup_version_spec
    [⟨"k1", "o", "v", "p", "n", "h1"⟩, ⟨"k1", "o", "v", "p", "n", "h1"⟩,
      ⟨"k1", "o2", "v2", "p", "n", "h2"⟩, ⟨"k2", "o3", "v3", "p", "n", "h3"⟩]).2.2.2
    "k1").trans ?_
  decide

end GerarCsv

namespace GerarCsv

/-- Mapping a function that fixes every element of a list is the identity. -/
theorem map_id_of_mem {α : Type} (f : α → α) :
    ∀ l : List α, (∀ c ∈ l, f c = c) → l.map f = l
  | [], _ => rfl
  | c :: cs, h => by
    rw [List.map_cons, h c (List.mem_cons_self c cs),
      map_id_of_mem f cs (fun x hx => h x (List.mem_cons_of_mem c hx))]

/-- `digitChar` produces digit characters on values below ten. -/
theorem digitChar_isDigit : ∀ d < 10, (digitChar d).isDigit = true := by decide

/-- `charDigitVal` inverts `digitChar` on values below ten. -/
theorem charDigitVal_digitChar : ∀ d < 10, charDigitVal (digitChar d) = d := by decide

/-- A digit character is none of the three separator characters. -/
theorem isDigit_ne (c : Char) (h : c.isDigit = true) :
    c ≠ ',' ∧ c ≠ '.' ∧ c ≠ 'X' := by
  refine ⟨fun he => ?_, fun he => ?_, fun he => ?_⟩ <;>
    (subst he; exact absurd h (by decide))

/-- The composed replace chain fixes digit characters. -/
theorem swaps_digit (c : Char) (h : c.isDigit = true) :
    swap3 (swap2 (swap1 c)) = c := by
  obtain ⟨h1, h2, h3⟩ := isDigit_ne c h
  simp [swap1, swap2, swap3, h1, h2, h3]

/-- `commaToDot` fixes digit characters. -/
theorem commaToDot_digit (c : Char) (h : c.isDigit = true) : commaToDot c = c := by
  simp [commaToDot, (isDigit_ne c h).1]

/-- Every digit emitted by `natDigitsAux` is below ten. -/
theorem natDigitsAux_lt (f : ℕ) : ∀ n d, d ∈ natDigitsAux f n → d < 10 := by
  induction f with
  | zero =>
    intro n d h
    cases n <;> simp [natDigitsAux] at h
  | succ f ih =>
    intro n d h
    cases n with
    | zero => simp [natDigitsAux] at h
    | succ n =>
      rw [show natDigitsAux (f + 1) (n + 1) =
        (n + 1) % 10 :: natDigitsAux f ((n + 1) / 10) from rfl] at h
      rcases List.mem_cons.1 h with rfl | h
      · exact Nat.mod_lt _ (by omega)
      · exact ih _ d h

/-- The digits of `natDigitsAux` recombine to the original number when the
fuel covers it. -/
theorem natDigitsAux_foldr (f : ℕ) : ∀ n, n ≤ f →
    (natDigitsAux f n).foldr (fun d a => 10 * a + d) 0 = n := by
  induction f with
  | zero =>
    intro n h
    interval_cases n
    simp [natDigitsAux]
  | succ f ih =>
    intro n h
    cases n with
    | zero => simp [natDigitsAux]
    | succ n =>
      rw [show natDigitsAux (f + 1) (n + 1) =
        (n + 1) % 10 :: natDigitsAux f ((n + 1) / 10) from rfl]
      rw [List.foldr_cons, ih ((n + 1) / 10) (by omega)]
      omega

/-- The rendered digit list of a number is never empty. -/
theorem intDigits_ne_nil (n : ℕ) : intDigits n ≠ [] := by
  unfold intDigits
  by_cases h : n = 0
  · simp [h]
  · rw [if_neg h]
    intro he
    have h2 := natDigitsAux_foldr n n le_rfl
    rw [List.reverse_eq_nil_iff.1 he] at h2
    exact h (by simpa using h2.symm)

/-- All rendered digits are below ten. -/
theorem intDigits_lt (n : ℕ) : ∀ d ∈ intDigits n, d < 10 := by
  intro d hd
  unfold intDigits at hd
  by_cases h : n = 0
  · rw [if_pos h] at hd
    simp at hd
    omega
  · rw [if_neg h] at hd
    exact natDigitsAux_lt n _ d (List.mem_reverse.1 hd)

/-- The rendered digit list evaluates back to the number. -/
theorem intDigits_val (n : ℕ) :
    (intDigits n).foldl (fun a d => 10 * a + d) 0 = n := by
  unfold intDigits
  by_cases h : n = 0
  · rw [if_pos h]
    simp [h]
  · rw [if_neg h, List.foldl_reverse]
    exact natDigitsAux_foldr n n le_rfl

/-- Accumulator form of `toNatMSB`. -/
theorem toNatMSB_acc (l : List Char) : ∀ a,
    l.foldl (fun a c => 10 * a + charDigitVal c) a =
      a * 10 ^ l.length + toNatMSB l := by
  induction l with
  | nil =>
    intro a
    simp [toNatMSB]
  | cons c cs ih =>
    intro a
    simp only [List.foldl_cons, toNatMSB, List.length_cons]
    rw [ih (10 * a + charDigitVal c), ih (10 * 0 + charDigitVal c)]
    ring

/-- `toNatMSB` over an append is positional. -/
theorem toNatMSB_append (l1 l2 : List Char) :
    toNatMSB (l1 ++ l2) = toNatMSB l1 * 10 ^ l2.length + toNatMSB l2 := by
  unfold toNatMSB
  rw [List.foldl_append]
  exact toNatMSB_acc l2 _

/-- `toNatMSB` over rendered digits is the plain digit fold. -/
theorem toNatMSB_map_digitChar : ∀ (ds : List ℕ), (∀ d ∈ ds, d < 10) → ∀ a,
    (ds.map digitChar).foldl (fun a c => 10 * a + charDigitVal c) a =
      ds.foldl (fun a d => 10 * a + d) a
  | [], _, _ => rfl
  | d :: ds, h, a => by
    rw [List.map_cons, List.foldl_cons, List.foldl_cons,
      charDigitVal_digitChar d (h d (List.mem_cons_self d ds))]
    exact toNatMSB_map_digitChar ds (fun x hx => h x (List.mem_cons_of_mem d hx)) _

/-- Parsing the rendered digits of `n` gives back `n`. -/
theorem digitsVal (n : ℕ) : toNatMSB ((intDigits n).map digitChar) = n := by
  unfold toNatMSB
  rw [toNatMSB_map_digitChar (intDigits n) (intDigits_lt n) 0]
  exact intDigits_val n

/-- Two rendered digits parse to their positional value. -/
theorem toNatMSB_two (x y : ℕ) (hx : x < 10) (hy : y < 10) :
    toNatMSB [digitChar x, digitChar y] = 10 * x + y := by
  unfold toNatMSB
  simp [charDigitVal_digitChar x hx, charDigitVal_digitChar y hy]

/-- Round-half-even is exact division on exact multiples. -/
theorem rhe_of_dvd (a b : ℕ) (hb : 0 < b) (h : b ∣ a) : rhe a b = a / b := by
  unfold rhe
  obtain ⟨k, rfl⟩ := h
  rw [Nat.mul_mod_right]
  rw [if_pos (by omega)]

/-- At scale two the cent count is the numerator itself. -/
theorem centsOf_two (n : ℕ) : centsOf n 2 = n := by
  unfold centsOf
  rw [show (10 : ℕ) ^ 2 = 100 from by norm_num]
  rw [rhe_of_dvd _ _ (by norm_num) ⟨n, by ring⟩]
  omega

/-- At scale zero the cent count is one hundred times the numerator. -/
theorem centsOf_zero (n : ℕ) : centsOf n 0 = n * 100 := by
  unfold centsOf
  rw [show (10 : ℕ) ^ 0 = 1 from by norm_num]
  rw [rhe_of_dvd _ _ one_pos (one_dvd _)]
  omega

end GerarCsv


namespace GerarCsv

/-- Every character of a grouped list is an input character or a comma. -/
theorem mem_group3rev : ∀ (r : List Char), ∀ c ∈ group3rev r, c ∈ r ∨ c = ','
  | [] => by simp [group3rev]
  | [a] => by simp [group3rev]
  | [a, b] => by simp [group3rev]
  | [a, b, c] => by simp [group3rev]
  | a :: b :: c :: d :: rest => by
    intro x hx
    rw [show group3rev (a :: b :: c :: d :: rest) =
      a :: b :: c :: ',' :: group3rev (d :: rest) from rfl] at hx
    simp only [List.mem_cons] at hx
    rcases hx with rfl | rfl | rfl | rfl | hx
    · exact Or.inl (by simp)
    · exact Or.inl (by simp)
    · exact Or.inl (by simp)
    · exact Or.inr rfl
    · rcases mem_group3rev (d :: rest) x hx with h | h
      · rcases List.mem_cons.1 h with rfl | h2
        · exact Or.inl (by simp)
        · exact Or.inl (by simp [h2])
      · exact Or.inr h

/-- After the separator swap, a grouped all-digit list reads as dot-grouped
groups of three from the right. -/
theorem revGroupedDot_grouped : ∀ (r : List Char), r ≠ [] →
    (∀ c ∈ r, c.isDigit = true) →
    revGroupedDot ((group3rev r).map (fun c => swap3 (swap2 (swap1 c)))) = true
  | [], hne, _ => absurd rfl hne
  | [a], _, h => by
    have ha := h a (by simp)
    simp [group3rev, swaps_digit a ha, revGroupedDot, ha]
  | [a, b], _, h => by
    have ha := h a (by simp)
    have hb := h b (by simp)
    simp [group3rev, swaps_digit a ha, swaps_digit b hb, revGroupedDot, ha, hb]
  | [a, b, c], _, h => by
    have ha := h a (by simp)
    have hb := h b (by simp)
    have hc := h c (by simp)
    simp [group3rev, swaps_digit a ha, swaps_digit b hb, swaps_digit c hc,
      revGroupedDot, ha, hb, hc]
  | a :: b :: c :: d :: rest, _, h => by
    have ha := h a (by simp)
    have hb := h b (by simp)
    have hc := h c (by simp)
    have ih := revGroupedDot_grouped (d :: rest) (by simp)
      (fun x hx => h x (by simp [hx]))
    rw [show group3rev (a :: b :: c :: d :: rest) =
      a :: b :: c :: ',' :: group3rev (d :: rest) from rfl]
    simp only [List.map_cons]
    rw [swaps_digit a ha, swaps_digit b hb, swaps_digit c hc,
      show swap3 (swap2 (swap1 ',')) = '.' from by decide]
    simp [revGroupedDot, ha, hb, hc, ih]

/-- Dropping the inserted separators from a swapped grouped list recovers the
original digit list. -/
theorem filter_grouped : ∀ (r : List Char), (∀ c ∈ r, c.isDigit = true) →
    ((group3rev r).map (fun c => swap3 (swap2 (swap1 c)))).filter
      (fun c => c != '.') = r
  | [], _ => by simp [group3rev]
  | [a], h => by
    have ha := h a (by simp)
    simp [group3rev, swaps_digit a ha, (isDigit_ne a ha).2.1]
  | [a, b], h => by
    have ha := h a (by simp)
    have hb := h b (by simp)
    simp [group3rev, swaps_digit a ha, swaps_digit b hb,
      (isDigit_ne a ha).2.1, (isDigit_ne b hb).2.1]
  | [a, b, c], h => by
    have ha := h a (by simp)
    have hb := h b (by simp)
    have hc := h c (by simp)
    simp [group3rev, swaps_digit a ha, swaps_digit b hb, swaps_digit c hc,
      (isDigit_ne a ha).2.1, (isDigit_ne b hb).2.1, (isDigit_ne c hc).2.1]
  | a :: b :: c :: d :: rest, h => by
    have ha := h a (by simp)
    have hb := h b (by simp)
    have hc := h c (by simp)
    have ih := filter_grouped (d :: rest) (fun x hx => h x (by simp [hx]))
    rw [show group3rev (a :: b :: c :: d :: rest) =
      a :: b :: c :: ',' :: group3rev (d :: rest) from rfl]
    simp only [List.map_cons]
    rw [swaps_digit a ha, swaps_digit b hb, swaps_digit c hc,
      show swap3 (swap2 (swap1 ',')) = '.' from by decide]
    simp [List.filter_cons, (isDigit_ne a ha).2.1, (isDigit_ne b hb).2.1,
      (isDigit_ne c hc).2.1, ih]

end GerarCsv

namespace GerarCsv

/-- `takeWhile` runs through a satisfying prefix and stops at the first
failing element. -/
theorem takeWhile_append_stop {α : Type} (p : α → Bool) :
    ∀ (xs : List α) (y : α) (ys : List α), (∀ x ∈ xs, p x = true) →
      p y = false → (xs ++ y :: ys).takeWhile p = xs
  | [], y, ys, _, hy => by simp [List.takeWhile_cons, hy]
  | x :: xs, y, ys, h, hy => by
    rw [List.cons_append, List.takeWhile_cons_of_pos (h x (by simp))]
    rw [takeWhile_append_stop p xs y ys (fun z hz => h z (by simp [hz])) hy]

/-- `dropWhile` drops a satisfying prefix and stops at the first failing
element. -/
theorem dropWhile_append_stop {α : Type} (p : α → Bool) :
    ∀ (xs : List α) (y : α) (ys : List α), (∀ x ∈ xs, p x = true) →
      p y = false → (xs ++ y :: ys).dropWhile p = y :: ys
  | [], y, ys, _, hy => by simp [List.dropWhile_cons, hy]
  | x :: xs, y, ys, h, hy => by
    rw [List.cons_append, List.dropWhile_cons_of_pos (h x (by simp))]
    exact dropWhile_append_stop p xs y ys (fun z hz => h z (by simp [hz])) hy

/-- `takeWhile` keeps a fully satisfying list. -/
theorem takeWhile_eq_self_of {α : Type} (p : α → Bool) :
    ∀ l : List α, (∀ x ∈ l, p x = true) → l.takeWhile p = l
  | [], _ => rfl
  | x :: xs, h => by
    rw [List.takeWhile_cons_of_pos (h x (by simp))]
    rw [takeWhile_eq_self_of p xs (fun z hz => h z (by simp [hz]))]

/-- `dropWhile` exhausts a fully satisfying list. -/
theorem dropWhile_eq_nil_of {α : Type} (p : α → Bool) :
    ∀ l : List α, (∀ x ∈ l, p x = true) → l.dropWhile p = []
  | [], _ => rfl
  | x :: xs, h => by
    rw [List.dropWhile_cons_of_pos (h x (by simp))]
    exact dropWhile_eq_nil_of p xs (fun z hz => h z (by simp [hz]))

/-- The head surviving `dropWhile` falsifies the predicate. -/
theorem dropWhile_head_false {α : Type} (p : α → Bool) :
    ∀ (l : List α) (x : α) (xs : List α), l.dropWhile p = x :: xs → p x = false
  | [], x, xs, h => by simp [List.dropWhile] at h
  | y :: ys, x, xs, h => by
    by_cases hy : p y
    · rw [List.dropWhile_cons_of_pos hy] at h
      exact dropWhile_head_false p ys x xs h
    · rw [List.dropWhile_cons_of_neg hy] at h
      obtain ⟨rfl, rfl⟩ := List.cons.inj h
      exact Bool.eq_false_iff.mpr hy

/-- `float()` on a non-empty all-digit string: the value with scale zero. -/
theorem pyFloatChars_digits (d : List Char) (hd : ∀ c ∈ d, c.isDigit = true)
    (hne : d ≠ []) : pyFloatChars d = some (toNatMSB d, 0) := by
  have hnd : ∀ c ∈ d, (c != '.') = true := fun c hc => by
    simp [(isDigit_ne c (hd c hc)).2.1]
  have hall : d.all (fun c => c.isDigit || c == '.') = true :=
    List.all_eq_true.mpr fun x hx => by simp [hd x hx]
  have hany : d.any Char.isDigit = true := by
    obtain ⟨x, hx⟩ := List.exists_mem_of_ne_nil d hne
    exact List.any_eq_true.mpr ⟨x, hx, hd x hx⟩
  have hcount : d.count '.' = 0 := List.count_eq_zero.mpr fun hmem =>
    absurd (hd '.' hmem) (by decide)
  unfold pyFloatChars
  rw [if_pos (by simp [hall, hany, hcount])]
  rw [takeWhile_eq_self_of _ d hnd, dropWhile_eq_nil_of _ d hnd]
  simp

/-- `float()` on an all-digit string with a dot and two decimals: the joined
digits with scale two. -/
theorem pyFloatChars_frac (d : List Char) (a b : Char)
    (hd : ∀ c ∈ d, c.isDigit = true) (ha : a.isDigit = true)
    (hb : b.isDigit = true) :
    pyFloatChars (d ++ '.' :: [a, b]) = some (toNatMSB (d ++ [a, b]), 2) := by
  have hnd : ∀ c ∈ d, (c != '.') = true := fun c hc => by
    simp [(isDigit_ne c (hd c hc)).2.1]
  have hall : (d ++ '.' :: [a, b]).all (fun c => c.isDigit || c == '.') = true := by
    refine List.all_eq_true.mpr fun x hx => ?_
    rcases List.mem_append.1 hx with hx | hx
    · simp [hd x hx]
    · simp only [List.mem_cons, List.not_mem_nil, or_false] at hx
      rcases hx with rfl | rfl | rfl
      · simp
      · simp [ha]
      · simp [hb]
  have hany : (d ++ '.' :: [a, b]).any Char.isDigit = true :=
    List.any_eq_true.mpr ⟨a, by simp, ha⟩
  have hcd : d.count '.' = 0 := List.count_eq_zero.mpr fun hmem =>
    absurd (hd '.' hmem) (by decide)
  have hcount : (d ++ '.' :: [a, b]).count '.' = 1 := by
    rw [List.count_append, hcd]
    have hca : ('.' ∈ [a, b]) → False := by
      intro hmem
      simp only [List.mem_cons, List.not_mem_nil, or_false] at hmem
      rcases hmem with rfl | rfl
      · exact absurd ha (by decide)
      · exact absurd hb (by decide)
    have : List.count '.' [a, b] = 0 := List.count_eq_zero.mpr hca
    rw [List.count_cons]
    simp [this]
  unfold pyFloatChars
  rw [if_pos (by simp [hall, hany, hcount])]
  rw [takeWhile_append_stop _ d '.' [a, b] hnd (by decide),
    dropWhile_append_stop _ d '.' [a, b] hnd (by decide)]
  simp

end GerarCsv

namespace GerarCsv

/-- The separator-swapped output of `usFormat`, decomposed: the `"R$ "`
prefix, the dot-grouped integer digits, a comma, and the two cent digits. -/
theorem mapped_usFormat (cents : ℕ) :
    (((usFormat cents).map swap1).map swap2).map swap3 =
      'R' :: '$' :: ' ' ::
        (((group3rev ((intDigits (cents / 100)).map digitChar).reverse).map
            (fun c => swap3 (swap2 (swap1 c)))).reverse ++
          ',' :: [digitChar (cents % 100 / 10), digitChar (cents % 10)]) := by
  have h1 : cents % 100 / 10 < 10 := by omega
  have h2 : cents % 10 < 10 := by omega
  unfold usFormat group3
  simp only [List.map_map, List.map_append, List.map_cons, List.map_nil,
    List.map_reverse, Function.comp]
  rw [swaps_digit _ (digitChar_isDigit _ h1), swaps_digit _ (digitChar_isDigit _ h2),
    show swap3 (swap2 (swap1 'R')) = 'R' from by decide,
    show swap3 (swap2 (swap1 '$')) = '$' from by decide,
    show swap3 (swap2 (swap1 ' ')) = ' ' from by decide,
    show swap3 (swap2 (swap1 '.')) = ',' from by decide]
  rfl

/-- The integer digits of the formatted value, as characters. -/
theorem mem_ipc_digit (n : ℕ) :
    ∀ c ∈ (intDigits n).map digitChar, c.isDigit = true := by
  intro c hc
  obtain ⟨d, hd, rfl⟩ := List.mem_map.1 hc
  exact digitChar_isDigit d (intDigits_lt n d hd)

/-- The reversed integer digit characters are digits as well. -/
theorem mem_ipc_rev_digit (n : ℕ) :
    ∀ c ∈ ((intDigits n).map digitChar).reverse, c.isDigit = true := by
  intro c hc
  exact mem_ipc_digit n c (List.mem_reverse.1 hc)

/-- Every output of the formatter matches the normalized currency shape
`R$ <dot-grouped digits>,<2 digits>`. -/
theorem outputShape_usFormat (cents : ℕ) :
    outputShape (String.mk ((((usFormat cents).map swap1).map swap2).map swap3)) =
      true := by
  have h1 : cents % 100 / 10 < 10 := by omega
  have h2 : cents % 10 < 10 := by omega
  rw [mapped_usFormat]
  show outputShape (String.mk ('R' :: '$' :: ' ' :: _)) = true
  unfold outputShape
  simp only [List.reverse_append, List.reverse_cons, List.reverse_nil,
    List.nil_append, List.reverse_reverse, List.cons_append, List.append_assoc]
  rw [digitChar_isDigit _ h1, digitChar_isDigit _ h2]
  rw [revGroupedDot_grouped ((intDigits (cents / 100)).map digitChar).reverse
    (by simp [intDigits_ne_nil]) (mem_ipc_rev_digit _)]
  rfl

end GerarCsv

namespace GerarCsv

/-- Reparsing a formatted value: `normalize_valor` maps every formatted
output back to itself (the `"R$ "` prefix is stripped, the grouping dots are
dropped, the comma becomes the decimal point, and the digits parse back to
the same cent count, which formats identically). -/
theorem normalize_valor_usFormat (cents : ℕ) :
    normalize_valor (String.mk ((((usFormat cents).map swap1).map swap2).map swap3)) =
      some (String.mk ((((usFormat cents).map swap1).map swap2).map swap3)) := by
  have h1 : cents % 100 / 10 < 10 := by omega
  have h2 : cents % 10 < 10 := by omega
  have hclean : cleanChars
      (String.mk ((((usFormat cents).map swap1).map swap2).map swap3)) =
      ((group3rev ((intDigits (cents / 100)).map digitChar).reverse).map
        (fun c => swap3 (swap2 (swap1 c)))).reverse ++
        ',' :: [digitChar (cents % 100 / 10), digitChar (cents % 10)] := by
    rw [show cleanChars
        (String.mk ((((usFormat cents).map swap1).map swap2).map swap3)) =
      ((((usFormat cents).map swap1).map swap2).map swap3).filter
        (fun c => c.isDigit || c == ',' || c == '.') from rfl]
    rw [mapped_usFormat]
    rw [List.filter_cons_of_neg (by decide), List.filter_cons_of_neg (by decide),
      List.filter_cons_of_neg (by decide)]
    refine List.filter_eq_self.mpr fun c hc => ?_
    rcases List.mem_append.1 hc with hc | hc
    · obtain ⟨x, hxmem, rfl⟩ := List.mem_map.1 (List.mem_reverse.1 hc)
      rcases mem_group3rev _ x hxmem with hx | rfl
      · have hxd := mem_ipc_rev_digit (cents / 100) x hx
        rw [swaps_digit x hxd]
        simp [hxd]
      · decide
    · simp only [List.mem_cons, List.not_mem_nil, or_false] at hc
      rcases hc with rfl | rfl | rfl
      · decide
      · simp [digitChar_isDigit _ h1]
      · simp [digitChar_isDigit _ h2]
  have hfilter : (cleanChars
      (String.mk ((((usFormat cents).map swap1).map swap2).map swap3))).filter
        (fun c => c != '.') =
      (intDigits (cents / 100)).map digitChar ++
        ',' :: [digitChar (cents % 100 / 10), digitChar (cents % 10)] := by
    rw [hclean, List.filter_append, List.filter_reverse,
      filter_grouped _ (mem_ipc_rev_digit _), List.reverse_reverse]
    congr 1
    rw [List.filter_cons_of_pos (by decide),
      List.filter_cons_of_pos (by simp [(isDigit_ne _ (digitChar_isDigit _ h1)).2.1]),
      List.filter_cons_of_pos (by simp [(isDigit_ne _ (digitChar_isDigit _ h2)).2.1]),
      List.filter_nil]
  have hmapc : ((cleanChars
      (String.mk ((((usFormat cents).map swap1).map swap2).map swap3))).filter
        (fun c => c != '.')).map commaToDot =
      (intDigits (cents / 100)).map digitChar ++
        '.' :: [digitChar (cents % 100 / 10), digitChar (cents % 10)] := by
    rw [hfilter, List.map_append,
      map_id_of_mem commaToDot _ (fun c hc => commaToDot_digit c (mem_ipc_digit _ c hc)),
      List.map_cons, show commaToDot ',' = '.' from by decide,
      List.map_cons, commaToDot_digit _ (digitChar_isDigit _ h1),
      List.map_cons, commaToDot_digit _ (digitChar_isDigit _ h2), List.map_nil]
  have hN : toNatMSB ((intDigits (cents / 100)).map digitChar ++
      [digitChar (cents % 100 / 10), digitChar (cents % 10)]) = cents := by
    rw [toNatMSB_append, digitsVal, toNatMSB_two _ _ h1 h2]
    rw [show ((10 : ℕ) ^ (List.length [digitChar (cents % 100 / 10),
      digitChar (cents % 10)])) = 100 from by norm_num]
    omega
  show normalize_valor _ = _
  simp only [normalize_valor]
  rw [hmapc, pyFloatChars_frac _ _ _ (mem_ipc_digit _)
    (digitChar_isDigit _ h1) (digitChar_isDigit _ h2)]
  simp only [centsOf_two, hN]

end GerarCsv

namespace GerarCsv

/-- Claim C2 — Currency normalization: for every string whose cleaned form is
a Brazilian-format currency (digits with optional dot thousands separators,
optionally a comma and exactly two decimals; extra characters stripped), and
whose integer part has at most 13 digits (the region where the exact-decimal
model coincides with CPython's double formatting), `normalize_valor` returns
a string of the shape `"R$ " <dot-grouped digits> ',' <2 digits>` and is
idempotent on that output. -/
theorem normalize_valor_spec (s : String)
    (hfmt : brFormat (cleanChars s) = true)
    (_hbound : ipDigitCount (cleanChars s) ≤ 13) :
    ∃ t, normalize_valor s = some t ∧ outputShape t = true ∧
      normalize_valor t = some t := by
  have hsplit := List.takeWhile_append_dropWhile (fun c => c != ',') (cleanChars s)
  simp only [brFormat, Bool.and_eq_true] at hfmt
  obtain ⟨⟨hall, hany⟩, hrest⟩ := hfmt
  have hipD_digit : ∀ c ∈ ((cleanChars s).takeWhile (fun c => c != ',')).filter
      (fun c => c != '.'), c.isDigit = true := by
    intro c hc
    obtain ⟨hc1, hc2⟩ := List.mem_filter.1 hc
    have := List.all_eq_true.1 hall c hc1
    rcases (Bool.or_eq_true _ _).mp this with hd | hdot
    · exact hd
    · rw [show c = '.' from by simpa using hdot] at hc2
      simp at hc2
  have hipD_ne : ((cleanChars s).takeWhile (fun c => c != ',')).filter
      (fun c => c != '.') ≠ [] := by
    obtain ⟨x, hx, hxd⟩ := List.any_eq_true.mp hany
    exact List.ne_nil_of_mem
      (List.mem_filter.2 ⟨hx, by simp [(isDigit_ne x hxd).2.1]⟩)
  have hmapD : (((cleanChars s).takeWhile (fun c => c != ',')).filter
      (fun c => c != '.')).map commaToDot =
      ((cleanChars s).takeWhile (fun c => c != ',')).filter (fun c => c != '.') :=
    map_id_of_mem _ _ (fun c hc => commaToDot_digit c (hipD_digit c hc))
  generalize hdrop : (cleanChars s).dropWhile (fun c => c != ',') = rest at hrest hsplit
  rcases rest with _ | ⟨x, rest2⟩
  · -- no comma: the cleaned string is the integer part alone
    have hl : cleanChars s = (cleanChars s).takeWhile (fun c => c != ',') := by
      conv_lhs => rw [← hsplit]
      rw [List.append_nil]
    have hv : ((cleanChars s).filter (fun c => c != '.')).map commaToDot =
        ((cleanChars s).takeWhile (fun c => c != ',')).filter (fun c => c != '.') := by
      conv_lhs => rw [hl]
      exact hmapD
    refine ⟨_, ?_, outputShape_usFormat
      (toNatMSB (((cleanChars s).takeWhile (fun c => c != ',')).filter
        (fun c => c != '.')) * 100),
      normalize_valor_usFormat _⟩
    simp only [normalize_valor]
    rw [hv, pyFloatChars_digits _ hipD_digit hipD_ne]
    simp only [centsOf_zero]
  · -- a comma: exactly two decimal digits follow
    have hx : x = ',' := by
      have := dropWhile_head_false (fun c => c != ',') (cleanChars s) x rest2 hdrop
      simpa using this
    subst hx
    rcases rest2 with _ | ⟨a, rest3⟩
    · simp at hrest
    rcases rest3 with _ | ⟨b, rest4⟩
    · simp at hrest
    rcases rest4 with _ | ⟨y, rest5⟩
    swap
    · simp at hrest
    obtain ⟨ha, hb⟩ : a.isDigit = true ∧ b.isDigit = true := by
      simpa [Bool.and_eq_true] using hrest
    have hl : cleanChars s =
        (cleanChars s).takeWhile (fun c => c != ',') ++ ',' :: [a, b] := by
      conv_lhs => rw [← hsplit]
    have hv : ((cleanChars s).filter (fun c => c != '.')).map commaToDot =
        (((cleanChars s).takeWhile (fun c => c != ',')).filter (fun c => c != '.')) ++
          '.' :: [a, b] := by
      conv_lhs => rw [hl]
      rw [List.filter_append, List.filter_cons_of_pos (by decide),
        List.filter_cons_of_pos (by simp [(isDigit_ne a ha).2.1]),
        List.filter_cons_of_pos (by simp [(isDigit_ne b hb).2.1]),
        List.filter_nil]
      rw [List.map_append, hmapD, List.map_cons,
        show commaToDot ',' = '.' from by decide, List.map_cons,
        commaToDot_digit a ha, List.map_cons, commaToDot_digit b hb, List.map_nil]
    refine ⟨_, ?_, outputShape_usFormat
      (toNatMSB ((((cleanChars s).takeWhile (fun c => c != ',')).filter
        (fun c => c != '.')) ++ [a, b])),
      normalize_valor_usFormat _⟩
    simp only [normalize_valor]
    rw [hv, pyFloatChars_frac _ _ _ hipD_digit ha hb]
    simp only [centsOf_two]

end GerarCsv

namespace GerarCsv

/-- Witness for C2 at the spec's example value: `"R$ 1.234,56"` is valid
Brazilian format within the 13-digit bound, normalizes to itself, and the
output matches the normalized shape. -/
theorem normalize_valor_spec_witness :
    brFormat (cleanChars "R$ 1.234,56") = true ∧
    ipDigitCount (cleanChars "R$ 1.234,56") ≤ 13 ∧
    (∃ t, normalize_valor "R$ 1.234,56" = some t ∧ outputShape t = true ∧
      normalize_valor t = some t) ∧
    normalize_valor "R$ 1.234,56" = some "R$ 1.234,56" := by
  exact ⟨by decide, by decide,
    normalize_valor_spec "R$ 1.234,56" (by decide) (by decide), by decide⟩

end GerarCsv

namespace GeraQa

/-- Claim C9, counterexample — the intra-run skip is racy: with two workers
and two same-base tasks (`versao_idx` 0 and 1, distinct object texts whose
slugs coincide), the schedule in which both workers dequeue before either
completes (possible with the default 8 concurrent workers, since the skip
check at gera_qa_async.py:95 and the marker add at line 116 are separated by
the `await call_llm` suspension) makes both tasks pass the skip check and
both generate QAPairs — two generations for one base id in a single run, and
no task skipped. -/
theorem concurrent_same_base_double_generation :
    (mkTask "contrato a b" "R$ 1,00" 0).base = "contrato_a_b" ∧
    (mkTask "Contrato A+B" "R$ 2,00" 1).base = "contrato_a_b" ∧
    (runPool (okOracle "P1: Qual o valor?") 3
      ⟨[mkTask "contrato a b" "R$ 1,00" 0, mkTask "Contrato A+B" "R$ 2,00" 1],
        [], [.idle, .idle]⟩ [0, 1, 0, 1]).2 =
      [(mkTask "contrato a b" "R$ 1,00" 0,
          .generated [⟨"contrato_a_b_00_v0", "Qual o valor?", "R$ 1,00",
            "contrato a b", "R$ 1,00"⟩]),
        (mkTask "Contrato A+B" "R$ 2,00" 1,
          .generated [⟨"contrato_a_b_01_v0", "Qual o valor?", "R$ 2,00",
            "Contrato A+B", "R$ 2,00"⟩])] := by
  decide

/-- Claim C9, amended — Once the marker `{b}_v0` is in the done set (in
particular, after any task with slug base `b` has been fully handled) and no
worker is still busy with a base-`b` task, then in the remainder of the run,
under every schedule: the marker stays in the done set, and every base-`b`
task the pool processes — regardless of its version index, object text or
value — is skipped, generating no QAPair. -/
theorem pool_skip_after_completion (o : RunOracle) (k : ℕ) :
    ∀ (sched : List ℕ) (st : PoolState) (b : String),
      b ++ "_v0" ∈ st.done →
      (∀ t : Task, WorkerState.busy t ∈ st.workers → t.base ≠ b) →
      b ++ "_v0" ∈ (runPool o k st sched).1.done ∧
      ∀ e ∈ (runPool o k st sched).2, e.1.base = b → e.2 = .skipped := by
  intro sched
  induction sched with
  | nil =>
    intro st b hd _
    exact ⟨hd, by simp [runPool]⟩
  | cons w ws ih =>
    intro st b hd hb
    have key : b ++ "_v0" ∈ (poolStep o k st w).1.done ∧
        (∀ t : Task, WorkerState.busy t ∈ (poolStep o k st w).1.workers →
          t.base ≠ b) ∧
        ∀ e ∈ (poolStep o k st w).2, e.1.base = b → e.2 = .skipped := by
      rcases hw : st.workers[w]? with _ | ⟨_ | t⟩
      · have hstep : poolStep o k st w = (st, []) := by
          simp [poolStep, hw]
        rw [hstep]
        exact ⟨hd, hb, by simp⟩
      · rcases hq : st.queue with _ | ⟨t, rest⟩
        · have hstep : poolStep o k st w = (st, []) := by
            simp [poolStep, hw, hq]
          rw [hstep]
          exact ⟨hd, hb, by simp⟩
        · by_cases hmem : markerOf t ∈ st.done
          · have hstep : poolStep o k st w =
                ({ st with queue := rest }, [(t, .skipped)]) := by
              simp [poolStep, hw, hq, hmem]
            rw [hstep]
            exact ⟨hd, hb, by simp⟩
          · have hstep : poolStep o k st w =
                (⟨rest, st.done, st.workers.set w (.busy t)⟩, []) := by
              simp [poolStep, hw, hq, hmem]
            rw [hstep]
            refine ⟨hd, ?_, by simp⟩
            intro t' ht'
            rcases List.mem_or_eq_of_mem_set ht' with hm | he
            · exact hb t' hm
            · obtain rfl : t' = t := by injection he
              intro heq
              exact hmem (by unfold markerOf; rw [heq]; exact hd)
      · have hbt : t.base ≠ b := hb t (List.getElem?_mem hw)
        have hinv : ∀ t' : Task,
            WorkerState.busy t' ∈ st.workers.set w WorkerState.idle →
              t'.base ≠ b := by
          intro t' ht'
          rcases List.mem_or_eq_of_mem_set ht' with hm | he
          · exact hb t' hm
          · exact absurd he (by simp)
        cases htg : tryGenerate o k t with
        | error e0 =>
          have hstep : poolStep o k st w =
              (⟨st.queue, markerOf t :: st.done,
                st.workers.set w WorkerState.idle⟩, [(t, .failed e0)]) := by
            simp [poolStep, hw, htg]
          rw [hstep]
          refine ⟨List.mem_cons_of_mem _ hd, hinv, ?_⟩
          intro e he heq
          simp only [List.mem_cons, List.not_mem_nil, or_false] at he
          subst he
          exact absurd heq hbt
        | ok qs0 =>
          have hstep : poolStep o k st w =
              (⟨st.queue, markerOf t :: st.done,
                st.workers.set w WorkerState.idle⟩,
                [(t, .generated (mkRecs t qs0))]) := by
            simp [poolStep, hw, htg]
          rw [hstep]
          refine ⟨List.mem_cons_of_mem _ hd, hinv, ?_⟩
          intro e he heq
          simp only [List.mem_cons, List.not_mem_nil, or_false] at he
          subst he
          exact absurd heq hbt
    obtain ⟨k1, k2, k3⟩ := key
    have hrec := ih (poolStep o k st w).1 b k1 k2
    refine ⟨hrec.1, ?_⟩
    intro e he heq
    rcases List.mem_append.1 he with he | he
    · exact k3 e he heq
    · exact hrec.2 e he heq

/-- Witness for the amended C9: with the marker of base `"contrato_a_b"`
already recorded and both workers idle, a queued task with the same slug base
but a different object text and version index is skipped and generates
nothing. -/
theorem pool_skip_after_completion_witness :
    (runPool (okOracle "P1: Qual o valor?") 3
      ⟨[mkTask "Contrato A+B" "R$ 2,00" 1], ["contrato_a_b_v0"],
        [.idle, .idle]⟩ [0]).2 =
      [(mkTask "Contrato A+B" "R$ 2,00" 1, .skipped)] ∧
    "contrato_a_b" ++ "_v0" ∈
      (runPool (okOracle "P1: Qual o valor?") 3
        ⟨[mkTask "Contrato A+B" "R$ 2,00" 1], ["contrato_a_b_v0"],
          [.idle, .idle]⟩ [0]).1.done := by
  refine ⟨by decide, ?_⟩
  exact (pool_skip_after_completion (okOracle "P1: Qual o valor?") 3 [0]
    ⟨[mkTask "Contrato A+B" "R$ 2,00" 1], ["contrato_a_b_v0"], [.idle, .idle]⟩
    "contrato_a_b" (by decide) (fun t ht => by simp at ht)).1

end GeraQa
